import Mathlib

/-!
A verification development of `main.go` of shell-agent.

The Go program is embedded shallowly.  A Go `string` is modelled as the list of
its code points (`Str`); this is exact for valid UTF-8 text, which is what
`encoding/json` hands to the program and what a terminal delivers.  The remote
inference service, the `bash` child process and the console are collaborators:
their outcomes enter the model as explicit inputs.
-/

set_option autoImplicit false

/-- Go `string`, as the list of its code points. -/
abbrev Str := List Char

/-! ## The parts of the Go standard library that `main.go` calls -/

namespace unicode

/-- Go `unicode.IsSpace`: the Latin-1 spaces and the code points with the
Unicode White_Space property. -/
def IsSpace (c : Char) : Bool :=
  let n := c.toNat
  (9 ≤ n && n ≤ 13) || n == 32 || n == 0x85 || n == 0xA0 || n == 0x1680 ||
  (0x2000 ≤ n && n ≤ 0x200A) || n == 0x2028 || n == 0x2029 || n == 0x202F ||
  n == 0x205F || n == 0x3000

end unicode

namespace strings

/-- Go `strings.TrimSpace`: drop leading and trailing white space. -/
def TrimSpace (s : Str) : Str :=
  (s.dropWhile unicode.IsSpace).rdropWhile unicode.IsSpace

/-- Go `strings.HasPrefix`. -/
def HasPrefix (s p : Str) : Bool :=
  p.isPrefixOf s

/-- Go `strings.Split` for a one-character separator: the pieces between the
separators, one more piece than there are separators. -/
def Split (s : Str) (sep : Char) : List Str :=
  match s with
  | [] => [[]]
  | c :: cs =>
    if c = sep then [] :: Split cs sep
    else
      match Split cs sep with
      | [] => [[c]]
      | l :: ls => (c :: l) :: ls

/-- Scanning loop of `strings.ReplaceAll` for a non-empty `old`: `skip` counts
the characters of the current match that are still to be passed over. -/
def replaceScan (old new : Str) : Nat → Str → Str
  | _, [] => []
  | skip + 1, _ :: cs => replaceScan old new skip cs
  | 0, c :: cs =>
    if old.isPrefixOf (c :: cs) then new ++ replaceScan old new (old.length - 1) cs
    else c :: replaceScan old new 0 cs

/-- Go `strings.ReplaceAll`: replace the non-overlapping occurrences of `old`,
leftmost first.  An empty `old` matches before every code point and at the end. -/
def ReplaceAll (s old new : Str) : Str :=
  if old = [] then new ++ s.flatMap (fun c => c :: new)
  else replaceScan old new 0 s

/-- Go `strings.Join`. -/
def Join (parts : List Str) (sep : Str) : Str :=
  List.intercalate sep parts

/-- Go `strings.ToLower`, over the code-point mapping `unicode.ToLower`, which
is a table of the Go runtime and enters as the parameter `lower`. -/
def ToLower (lower : Char → Char) (s : Str) : Str :=
  s.map lower

end strings

namespace fmt

/-- Go `fmt` verb `%d` on an `int`. -/
def formatInt (n : Int) : Str :=
  if n < 0 then '-' :: Nat.toDigits 10 n.natAbs else Nat.toDigits 10 n.natAbs

end fmt

/-! ## Data model (`main.go`, lines 16-48) -/

/-- `CommandHistory`: one executed command and what it printed. -/
structure CommandHistory where
  Command : Str
  Result : Str
  deriving DecidableEq, Repr

/-- `OllamaRequest`: the body sent to the inference service. -/
structure OllamaRequest where
  Model : Str
  Prompt : Str
  Stream : Bool
  deriving DecidableEq, Repr

/-- `Config`: `Timeout` is a `time.Duration` (nanoseconds), `MaxHistory` an `int`. -/
structure Config where
  OllamaURL : Str
  Model : Str
  Timeout : Int
  MaxHistory : Int
  deriving DecidableEq, Repr

/-- `ShellAgent`: the history and the configuration (the HTTP client is part
of the inference collaborator). -/
structure ShellAgent where
  commandHistory : List CommandHistory
  config : Config
  deriving DecidableEq, Repr

/-- `NewShellAgent` (lines 51-66). -/
def NewShellAgent : ShellAgent :=
  { commandHistory := []
    config :=
      { OllamaURL := "http://localhost:11434/api/generate".toList
        Model := "qwen2.5-coder:3b".toList
        Timeout := 60 * 1000000000
        MaxHistory := 30 } }

/-! ## Collaborators -/

/-- What one exchange with the inference service comes to: `json.Marshal`
fails, `client.Post` fails, or a response arrives with a status code and a
body that `json.Decoder` either rejects or decodes to the `response` field. -/
inductive OllamaOutcome where
  | marshalError (err : Str)
  | postError (err : Str)
  | response (statusCode : Int) (body : Except Str Str)

/-- What `cmd.Run()` of `bash -c command` under the timeout comes to: the two
captured streams and the error of `Run` (`none` for a zero exit status). -/
structure ExecOutcome where
  stdout : Str
  stderr : Str
  err : Option Str
  deriving DecidableEq, Repr

/-- What `reader.ReadString` returns: the data read and the error, if any. -/
structure ReadResult where
  line : Str
  err : Option Str
  deriving DecidableEq, Repr

/-- The collaborators of one turn. -/
structure Env where
  lower : Char → Char
  ollama : OllamaRequest → OllamaOutcome
  exec : Str → ExecOutcome

/-- A sample of collaborators: the ASCII part of `unicode.ToLower`, an
inference service that cannot be reached and commands that print nothing. -/
def offlineEnv : Env :=
  { lower := Char.toLower
    ollama := fun _ => .postError "connection refused".toList
    exec := fun _ => { stdout := [], stderr := [], err := none } }

namespace ShellAgent

/-! ## `naturalLanguageToCommand` (lines 69-150) -/

/-- The fence marker looked for in a model response. -/
def fence : Str := "```".toList

/-- Header of the context block (line 73). -/
def contextHeader : Str := "\n\nКонтекст предыдущих команд:\n".toList

/-- Line 80: `fmt.Sprintf("%d. %s\n", i+1, cmd.Command)`. -/
def contextLine (i : Nat) (command : Str) : Str :=
  fmt.formatInt ((i : Int) + 1) ++ ". ".toList ++ command ++ "\n".toList

/-- Lines 71-82: the context block rendered from the history. -/
def contextInfo (sa : ShellAgent) : Str :=
  if sa.commandHistory.length > 0 then
    let start : Int := (sa.commandHistory.length : Int) - 3
    let start : Int := if start < 0 then 0 else start
    (sa.commandHistory.drop start.toNat).enum.foldl
      (fun acc p => acc ++ contextLine p.1 p.2.Command) contextHeader
  else []

/-- The instruction template up to its first `%s` (lines 84-101). -/
def promptHead : Str :=
  ("Преобразуй следующий запрос на естественном языке в команду Linux.\n" ++
   "Учитывай контекст предыдущих команд для понимания, о каких файлах или объектах идет речь.\n" ++
   "Отвечай ТОЛЬКО командой, без объяснений и дополнительного текста.\n" ++
   "\n" ++
   "Примеры:\n" ++
   "- \"покажи файлы\" -> ls -la\n" ++
   "- \"кто я\" -> whoami  \n" ++
   "- \"текущая папка\" -> pwd\n" ++
   "- \"информация о системе\" -> uname -a\n" ++
   "- \"свободная память\" -> free -h\n" ++
   "- \"использование диска\" -> df -h\n" ++
   "- \"запущенные процессы\" -> ps aux\n" ++
   "- \"дата и время\" -> date\n" ++
   "- \"содержимое файла test.txt\" -> cat test.txt\n" ++
   "- \"найти файлы с расширением .py\" -> find . -name \"*.py\"\n" ++
   "- \"создай файл example.txt\" -> touch example.txt\n" ++
   "- \"покажи содержимое файла\" (после создания example.txt) -> cat example.txt\n" ++
   "\n").toList

/-- Lines 84-106: the prompt, the template filled with the context block and
the query. -/
def buildPrompt (sa : ShellAgent) (query : Str) : Str :=
  promptHead ++ contextInfo sa ++ "\n\nЗапрос: ".toList ++ query ++ "\n\nКоманда:".toList

/-- Lines 138-149: the post-processing of the raw response. -/
def postProcess (response : Str) : Str :=
  let command := strings.TrimSpace response
  let command :=
    if strings.HasPrefix command fence then
      let lines := strings.Split command '\n'
      if h : lines.length > 1 then lines[1] else command
    else command
  let command := strings.ReplaceAll command fence []
  strings.TrimSpace command

/-- Lines 69-150.  The receiver is only read. -/
def naturalLanguageToCommand (sa : ShellAgent) (ollama : OllamaRequest → OllamaOutcome)
    (query : Str) : Except Str Str :=
  let reqBody : OllamaRequest :=
    { Model := sa.config.Model, Prompt := buildPrompt sa query, Stream := false }
  match ollama reqBody with
  | .marshalError err => .error ("ошибка создания JSON: ".toList ++ err)
  | .postError err => .error ("ошибка запроса к Ollama: ".toList ++ err)
  | .response statusCode body =>
    if statusCode ≠ 200 then
      .error ("Ollama вернул статус ".toList ++ fmt.formatInt statusCode)
    else
      match body with
      | .error err => .error ("ошибка парсинга ответа: ".toList ++ err)
      | .ok response => .ok (postProcess response)

/-! ## `runShell` (lines 153-192) -/

/-- Lines 153-192; `exec` stands for lines 158-167, the run of `bash -c`. -/
def runShell (exec : Str → ExecOutcome) (command : Str) : Str :=
  if strings.TrimSpace command = [] then "Пустая команда".toList
  else
    let r := exec command
    let output : List Str := []
    let output :=
      if r.stdout.length > 0 then output ++ [strings.TrimSpace r.stdout] else output
    let output :=
      if r.stderr.length > 0 then
        match r.err with
        | some _ => output ++ ["Ошибка: ".toList ++ strings.TrimSpace r.stderr]
        | none => output ++ ["Предупреждения: ".toList ++ strings.TrimSpace r.stderr]
      else output
    if output.length > 0 then strings.Join output "\n".toList
    else
      match r.err with
      | some err => "Ошибка выполнения: ".toList ++ err
      | none => "Команда выполнена успешно (нет вывода)".toList

/-! ## `intelligentShellAgent` (lines 224-279) -/

/-- Lines 259-267: append the entry, then keep the last `MaxHistory` entries.
The slice expression panics (`none`) when its lower bound is out of range. -/
def record (sa : ShellAgent) (command result : Str) : Option ShellAgent :=
  let history := sa.commandHistory ++ [{ Command := command, Result := result }]
  if (history.length : Int) > sa.config.MaxHistory then
    let low : Int := (history.length : Int) - sa.config.MaxHistory
    if 0 ≤ low ∧ low ≤ (history.length : Int) then
      some { sa with commandHistory := history.drop low.toNat }
    else none
  else some { sa with commandHistory := history }

/-- Control state of `intelligentShellAgent`: at the head of the confirmation
loop with the candidate command, returned with a result, or stopped by a
run-time panic. -/
inductive Turn where
  | confirming (sa : ShellAgent) (command : Str)
  | returned (sa : ShellAgent) (result : Str)
  | panicked
  deriving DecidableEq, Repr

/-- The three arms of the `if` chain of lines 251-277. -/
inductive Branch where
  | execute
  | cancel
  | reprompt
  deriving DecidableEq, Repr

/-- Lines 251, 272 and 275: the arm taken on the normalised token. -/
def branchOf (permission : Str) : Branch :=
  if permission = "да".toList ∨ permission = "yes".toList ∨ permission = "y".toList ∨
      permission = "d".toList ∨ permission = "1".toList then .execute
  else if permission = "нет".toList ∨ permission = "no".toList ∨ permission = "n".toList ∨
      permission = "0".toList then .cancel
  else .reprompt

/-- The message returned on a decline (line 274). -/
def cancelled : Str := "Выполнение команды отменено пользователем".toList

/-- Lines 247-277: one iteration of the confirmation loop on the line read. -/
def confirmIteration (lower : Char → Char) (exec : Str → ExecOutcome) (sa : ShellAgent)
    (command : Str) (line : Str) : Turn :=
  let permission := strings.TrimSpace (strings.ToLower lower line)
  match branchOf permission with
  | .execute =>
    let result := runShell exec command
    match record sa command result with
    | some sa' => .returned sa' result
    | none => .panicked
  | .cancel => .returned sa cancelled
  | .reprompt => .confirming sa command

/-- Lines 246-278: the confirmation loop, run for at most `fuel` reads of the
console; the error of `ReadString` is dropped (line 248). -/
def confirmLoop (lower : Char → Char) (exec : Str → ExecOutcome) :
    Nat → ShellAgent → Str → (Nat → ReadResult) → Turn
  | 0, sa, command, _ => .confirming sa command
  | fuel + 1, sa, command, reads =>
    match confirmIteration lower exec sa command (reads 0).line with
    | .confirming sa' command' =>
      confirmLoop lower exec fuel sa' command' (fun n => reads (n + 1))
    | t => t

/-- Lines 224-279: translate, then run the confirmation loop. -/
def intelligentShellAgent (env : Env) (sa : ShellAgent) (query : Str)
    (reads : Nat → ReadResult) (fuel : Nat) : Turn :=
  match naturalLanguageToCommand sa env.ollama query with
  | .error err => .returned sa ("Ошибка преобразования: ".toList ++ err)
  | .ok command => confirmLoop env.lower env.exec fuel sa command reads

/-! ## `interactiveMode` (lines 282-334) -/

/-- Where the session stands between two reads of the console. -/
inductive Phase where
  | awaitingQuery
  | awaitingConfirmation (command : Str)
  | ended
  | panicked
  deriving DecidableEq, Repr

/-- The agent together with the phase of the session. -/
structure Session where
  sa : ShellAgent
  phase : Phase
  deriving DecidableEq, Repr

/-- `clearCommandHistory` (lines 218-221). -/
def clearCommandHistory (sa : ShellAgent) : ShellAgent :=
  { sa with commandHistory := [] }

/-- Lines 304-332: the body of the session loop on one read of the query. -/
def queryIteration (env : Env) (sa : ShellAgent) (r : ReadResult) : Session :=
  match r.err with
  | some _ => { sa := sa, phase := .awaitingQuery }
  | none =>
    let query := strings.TrimSpace r.line
    if query = [] then { sa := sa, phase := .awaitingQuery }
    else
      let lowerQuery := strings.ToLower env.lower query
      if lowerQuery = "exit".toList ∨ lowerQuery = "quit".toList ∨
          lowerQuery = "выход".toList ∨ lowerQuery = "выйти".toList then
        { sa := sa, phase := .ended }
      else if lowerQuery = "история".toList ∨ lowerQuery = "history".toList ∨
          lowerQuery = "контекст".toList then
        { sa := sa, phase := .awaitingQuery }
      else if lowerQuery = "очистить историю".toList ∨ lowerQuery = "clear history".toList ∨
          lowerQuery = "очистить контекст".toList then
        { sa := clearCommandHistory sa, phase := .awaitingQuery }
      else
        match naturalLanguageToCommand sa env.ollama query with
        | .error _ => { sa := sa, phase := .awaitingQuery }
        | .ok command => { sa := sa, phase := .awaitingConfirmation command }

/-- One read of the console and what the program does with it, in either loop. -/
def step (env : Env) (s : Session) (r : ReadResult) : Session :=
  match s.phase with
  | .awaitingQuery => queryIteration env s.sa r
  | .awaitingConfirmation command =>
    match confirmIteration env.lower env.exec s.sa command r.line with
    | .confirming sa' command' => { sa := sa', phase := .awaitingConfirmation command' }
    | .returned sa' _ => { sa := sa', phase := .awaitingQuery }
    | .panicked => { sa := s.sa, phase := .panicked }
  | .ended => s
  | .panicked => s

/-- The session after `n` reads of the console: `reads k` is the result of the
`k`-th call of `ReadString`, `env k` the collaborators as they answer then. -/
def runSession (env : Nat → Env) (reads : Nat → ReadResult) : Nat → Session → Session
  | 0, s => s
  | n + 1, s => runSession (fun k => env (k + 1)) (fun k => reads (k + 1)) n (step (env 0) s (reads 0))

/-- Lines 282-334: `interactiveMode` on the agent, followed for `n` reads. -/
def interactiveMode (env : Nat → Env) (reads : Nat → ReadResult) (sa : ShellAgent) (n : Nat) :
    Session :=
  runSession env reads n { sa := sa, phase := .awaitingQuery }

end ShellAgent

/-! ## Definitions used to state the properties -/

namespace ShellAgent

/-- The character the fence marker is made of (U+0060). -/
def tick : Char := Char.ofNat 96

/-- The entries kept of `es` under capacity `m`: its last `min es.length m`. -/
def lastEntries (m : Nat) (es : List CommandHistory) : List CommandHistory :=
  es.drop (es.length - min es.length m)

/-- The context block as the specification words it, over the commands of
the history: nothing for an empty history, else the header and, for the
`k = min 3 n` most recent commands in chronological order, the lines
`j. command` numbered from 1. -/
def contextBlockSpec (commands : List Str) : Str :=
  if commands = [] then []
  else
    contextHeader ++
      (List.range (min 3 commands.length)).flatMap (fun j =>
        (Nat.repr (j + 1)).toList ++ ". ".toList ++
          commands.getD (commands.length - min 3 commands.length + j) [] ++ "\n".toList)

/-- The confirm set of the specification. -/
def confirmSet : List Str :=
  ["да".toList, "yes".toList, "y".toList, "d".toList, "1".toList]

/-- The decline set of the specification. -/
def declineSet : List Str :=
  ["нет".toList, "no".toList, "n".toList, "0".toList]

end ShellAgent

/-! ## Facts about the string functions -/

namespace strings

theorem replaceScan_skip (old new : Str) (s : Str) (k : Nat) :
    replaceScan old new k s = replaceScan old new 0 (s.drop k) := by
  induction s generalizing k with
  | nil => cases k <;> simp [replaceScan]
  | cons c cs ih =>
    cases k with
    | zero => simp
    | succ k => simp only [replaceScan, List.drop_succ_cons]; exact ih k

theorem TrimSpace_sublist (s : Str) : (TrimSpace s).Sublist s :=
  ((List.rdropWhile_prefix _ _).sublist).trans (List.dropWhile_suffix _).sublist

theorem TrimSpace_infix (s : Str) : TrimSpace s <:+: s :=
  List.IsInfix.trans (List.rdropWhile_prefix _ _).isInfix (List.dropWhile_suffix _).isInfix

theorem TrimSpace_head (s : Str) (c : Char) (t : Str) (h : TrimSpace s = c :: t) :
    unicode.IsSpace c = false := by
  have hp : TrimSpace s <+: s.dropWhile unicode.IsSpace := List.rdropWhile_prefix _ _
  rw [h] at hp
  obtain ⟨r, hr⟩ := hp
  have hn := List.head?_dropWhile_not unicode.IsSpace s
  rw [← hr] at hn
  simpa using hn

theorem TrimSpace_idem (s : Str) : TrimSpace (TrimSpace s) = TrimSpace s := by
  have e1 : (TrimSpace s).dropWhile unicode.IsSpace = TrimSpace s := by
    cases h : TrimSpace s with
    | nil => rfl
    | cons a t => simp [List.dropWhile_cons, TrimSpace_head s a t h]
  have e2 : TrimSpace (TrimSpace s) =
      List.rdropWhile unicode.IsSpace (List.dropWhile unicode.IsSpace (TrimSpace s)) := rfl
  rw [e2, e1]
  unfold TrimSpace
  exact List.rdropWhile_idempotent _ _

theorem TrimSpace_eq_nil_iff (s : Str) : TrimSpace s = [] ↔ ∀ c ∈ s, unicode.IsSpace c = true := by
  unfold TrimSpace
  rw [List.rdropWhile_eq_nil_iff]
  constructor
  · intro h c hc
    by_contra hcs
    have hcs' : unicode.IsSpace c = false := by simpa using hcs
    have hm : c ∈ s.dropWhile unicode.IsSpace := by
      have hsplit := List.takeWhile_append_dropWhile unicode.IsSpace s
      rw [← hsplit] at hc
      rcases List.mem_append.mp hc with h1 | h1
      · have := List.mem_takeWhile_imp h1
        rw [hcs'] at this
        exact absurd this (by simp)
      · exact h1
    exact hcs (h c hm)
  · intro h c hc
    exact h c ((List.dropWhile_suffix _).subset hc)

theorem mem_of_mem_replaceScan (old : Str) (s : Str) (k : Nat) (c : Char)
    (h : c ∈ replaceScan old [] k s) : c ∈ s := by
  induction s generalizing k with
  | nil => cases k <;> simp [replaceScan] at h
  | cons a t ih =>
    cases k with
    | succ k =>
      simp only [replaceScan] at h
      exact List.mem_cons_of_mem _ (ih k h)
    | zero =>
      simp only [replaceScan] at h
      split at h
      · exact List.mem_cons_of_mem _ (ih _ (by simpa using h))
      · rcases List.mem_cons.mp h with h1 | h1
        · rw [h1]; exact List.mem_cons_self _ _
        · exact List.mem_cons_of_mem _ (ih 0 h1)

theorem mem_of_mem_ReplaceAll (s old : Str) (c : Char) (h : c ∈ ReplaceAll s old []) : c ∈ s := by
  unfold ReplaceAll at h
  split at h
  · simpa using h
  · exact mem_of_mem_replaceScan old s 0 c h

/-! ### `Split` -/

theorem Split_ne_nil (s : Str) (sep : Char) : Split s sep ≠ [] := by
  cases s with
  | nil => simp [Split]
  | cons c cs =>
    unfold Split
    split
    · simp
    · split <;> simp

theorem Split_cons_ne (c : Char) (cs : Str) (sep : Char) (h : c ≠ sep) :
    Split (c :: cs) sep =
      match Split cs sep with
      | [] => [[c]]
      | l :: ls => (c :: l) :: ls := by
  rw [Split, if_neg h]

theorem Split_of_not_mem (s : Str) (sep : Char) (h : sep ∉ s) : Split s sep = [s] := by
  induction s with
  | nil => rfl
  | cons c cs ih =>
    have hc : c ≠ sep := fun e => h (e ▸ List.mem_cons_self _ _)
    have hcs : sep ∉ cs := fun e => h (List.mem_cons_of_mem _ e)
    unfold Split
    rw [if_neg hc, ih hcs]

theorem Split_append_sep (a r : Str) (sep : Char) (h : sep ∉ a) :
    Split (a ++ sep :: r) sep = a :: Split r sep := by
  induction a with
  | nil => simp [Split]
  | cons c cs ih =>
    have hc : c ≠ sep := fun e => h (e ▸ List.mem_cons_self _ _)
    have hcs : sep ∉ cs := fun e => h (List.mem_cons_of_mem _ e)
    rw [List.cons_append, Split_cons_ne _ _ _ hc, ih hcs]

theorem not_mem_of_mem_Split (s : Str) (sep : Char) (l : Str) (h : l ∈ Split s sep) : sep ∉ l := by
  induction s generalizing l with
  | nil =>
    simp only [Split, List.mem_singleton] at h
    rw [h]; simp
  | cons c cs ih =>
    unfold Split at h
    split at h
    · rcases List.mem_cons.mp h with h1 | h1
      · rw [h1]; simp
      · exact ih l h1
    · rename_i hc
      split at h
      · rename_i heq
        exact absurd heq (Split_ne_nil cs sep)
      · rename_i l0 ls heq
        have hl0 : sep ∉ l0 := ih l0 (by rw [heq]; exact List.mem_cons_self _ _)
        rcases List.mem_cons.mp h with h1 | h1
        · rw [h1]
          intro hm
          rcases List.mem_cons.mp hm with h2 | h2
          · exact hc h2.symm
          · exact hl0 h2
        · exact ih l (by rw [heq]; exact List.mem_cons_of_mem _ h1)

theorem Split_singleton (s : Str) (sep : Char) (l : Str) (h : Split s sep = [l]) : s = l := by
  induction s generalizing l with
  | nil => simpa [Split] using h
  | cons c cs ih =>
    unfold Split at h
    split at h
    · have := Split_ne_nil cs sep
      simp at h
      exact absurd h.2 this
    · split at h
      · rename_i heq
        exact absurd heq (Split_ne_nil cs sep)
      · rename_i l0 ls heq
        simp only [List.cons.injEq] at h
        obtain ⟨h1, h2⟩ := h
        rw [h2] at heq
        rw [ih l0 heq, h1]

end strings

namespace ShellAgent

/-! ## Removing the fence marker -/

theorem fence_eq : fence = [tick, tick, tick] := by decide

theorem fence_ne_nil : fence ≠ [] := by decide

theorem removeFence_nil : strings.ReplaceAll [] fence [] = [] := by
  simp [strings.ReplaceAll, fence_ne_nil, strings.replaceScan]

theorem removeFence_match (t : Str) :
    strings.ReplaceAll (tick :: tick :: tick :: t) fence [] = strings.ReplaceAll t fence [] := by
  have hp : fence.isPrefixOf (tick :: tick :: tick :: t) = true := by
    rw [List.isPrefixOf_iff_prefix, fence_eq]
    exact ⟨t, rfl⟩
  have hl : fence.length - 1 = 2 := by decide
  simp only [strings.ReplaceAll, if_neg fence_ne_nil]
  rw [strings.replaceScan, if_pos hp, hl, List.nil_append, strings.replaceScan_skip]
  rfl

theorem removeFence_skip (c : Char) (cs : Str) (h : ¬ fence <+: c :: cs) :
    strings.ReplaceAll (c :: cs) fence [] = c :: strings.ReplaceAll cs fence [] := by
  have hp : ¬ fence.isPrefixOf (c :: cs) = true := by
    rw [List.isPrefixOf_iff_prefix]; exact h
  simp only [strings.ReplaceAll, if_neg fence_ne_nil]
  rw [strings.replaceScan, if_neg hp]

theorem fence_prefix_iff (s : Str) : fence <+: s ↔ ∃ t, s = tick :: tick :: tick :: t := by
  rw [fence_eq]
  constructor
  · rintro ⟨t, rfl⟩; exact ⟨t, rfl⟩
  · rintro ⟨t, rfl⟩; exact ⟨t, rfl⟩

theorem fence_infix_cons (a : Char) (l : Str) :
    fence <:+: a :: l ↔ fence <+: a :: l ∨ fence <:+: l :=
  List.infix_cons_iff

theorem not_fence_infix_nil : ¬ fence <:+: ([] : Str) := by
  intro h
  exact fence_ne_nil (List.eq_nil_of_infix_nil h)

/-- After the removal no fence marker is left. -/
theorem removeFence_noFence (s : Str) : ¬ fence <:+: strings.ReplaceAll s fence [] := by
  suffices H : ∀ (n : Nat) (s : Str), s.length = n → ¬ fence <:+: strings.ReplaceAll s fence []
    from H _ s rfl
  intro n
  induction n using Nat.strong_induction_on with
  | _ n ih =>
    intro s hn
    subst hn
    match s with
    | [] => rw [removeFence_nil]; exact not_fence_infix_nil
    | [a] =>
      have h1 : ¬ fence <+: [a] := by rw [fence_prefix_iff]; rintro ⟨t, ht⟩; simp at ht
      rw [removeFence_skip _ _ h1, removeFence_nil, fence_infix_cons]
      rintro (h | h)
      · exact h1 h
      · exact not_fence_infix_nil h
    | [a, b] =>
      have h1 : ¬ fence <+: [a, b] := by rw [fence_prefix_iff]; rintro ⟨t, ht⟩; simp at ht
      have h2 : ¬ fence <+: [b] := by rw [fence_prefix_iff]; rintro ⟨t, ht⟩; simp at ht
      rw [removeFence_skip _ _ h1, removeFence_skip _ _ h2, removeFence_nil, fence_infix_cons,
        fence_infix_cons]
      rintro (h | h | h)
      · exact h1 h
      · exact h2 h
      · exact not_fence_infix_nil h
    | a :: b :: c :: t =>
      by_cases hm : a = tick ∧ b = tick ∧ c = tick
      · obtain ⟨rfl, rfl, rfl⟩ := hm
        rw [removeFence_match]
        exact ih t.length (by simp; omega) t rfl
      · have h1 : ¬ fence <+: a :: b :: c :: t := by
          rw [fence_prefix_iff]; rintro ⟨t', ht⟩
          simp only [List.cons.injEq] at ht
          exact hm ⟨ht.1, ht.2.1, ht.2.2.1⟩
        rw [removeFence_skip _ _ h1, fence_infix_cons]
        have hrec := ih (b :: c :: t).length (by simp) (b :: c :: t) rfl
        rintro (h | h)
        · -- a fence at the head of the output: the input had `a = tick` and the
          -- output of the tail starts with two ticks
          rw [fence_prefix_iff] at h
          obtain ⟨t', ht⟩ := h
          simp only [List.cons.injEq] at ht
          obtain ⟨ha, hrest⟩ := ht
          by_cases hb : b = tick
          · by_cases hc : c = tick
            · exact hm ⟨ha, hb, hc⟩
            · -- tail is tick :: c :: t with c ≠ tick
              have h2 : ¬ fence <+: b :: c :: t := by
                rw [fence_prefix_iff]; rintro ⟨t'', ht''⟩
                simp only [List.cons.injEq] at ht''
                exact hc ht''.2.1
              rw [removeFence_skip _ _ h2] at hrest
              simp only [List.cons.injEq] at hrest
              obtain ⟨_, hrest⟩ := hrest
              by_cases h3 : fence <+: c :: t
              · rw [fence_prefix_iff] at h3
                obtain ⟨t'', ht''⟩ := h3
                simp only [List.cons.injEq] at ht''
                exact hc ht''.1
              · rw [removeFence_skip _ _ h3] at hrest
                simp only [List.cons.injEq] at hrest
                exact hc hrest.1
          · have h2 : ¬ fence <+: b :: c :: t := by
              rw [fence_prefix_iff]; rintro ⟨t'', ht''⟩
              simp only [List.cons.injEq] at ht''
              exact hb ht''.1
            rw [removeFence_skip _ _ h2] at hrest
            simp only [List.cons.injEq] at hrest
            exact hb hrest.1
        · exact hrec h

/-- Where no fence marker occurs the removal changes nothing. -/
theorem removeFence_of_noFence (s : Str) (h : ¬ fence <:+: s) :
    strings.ReplaceAll s fence [] = s := by
  induction s with
  | nil => exact removeFence_nil
  | cons c cs ih =>
    rw [fence_infix_cons] at h
    push_neg at h
    rw [removeFence_skip _ _ h.1, ih h.2]

/-! ## `postProcess` -/

/-- The text whose fences are removed: the second line of a fenced response of
several lines, the trimmed response otherwise. -/
theorem postProcess_shape (s : Str) :
    ∃ x : Str, postProcess s = strings.TrimSpace (strings.ReplaceAll x fence []) := by
  unfold postProcess
  exact ⟨_, rfl⟩

theorem postProcess_noFence (s : Str) : ¬ fence <:+: postProcess s := by
  obtain ⟨x, hx⟩ := postProcess_shape s
  rw [hx]
  exact fun h => removeFence_noFence x (List.IsInfix.trans h (strings.TrimSpace_infix _))

theorem postProcess_trimmed (s : Str) : strings.TrimSpace (postProcess s) = postProcess s := by
  obtain ⟨x, hx⟩ := postProcess_shape s
  rw [hx]
  exact strings.TrimSpace_idem _

theorem postProcess_of_clean (y : Str) (h1 : strings.TrimSpace y = y) (h2 : ¬ fence <:+: y) :
    postProcess y = y := by
  have hp : strings.HasPrefix y fence = false := by
    unfold strings.HasPrefix
    rw [Bool.eq_false_iff]
    intro h
    rw [List.isPrefixOf_iff_prefix] at h
    exact h2 h.isInfix
  unfold postProcess
  simp only [h1, hp, Bool.false_eq_true, if_false, removeFence_of_noFence y h2]

theorem postProcess_unfenced (s : Str) (h : strings.HasPrefix (strings.TrimSpace s) fence = false) :
    postProcess s = strings.TrimSpace (strings.ReplaceAll (strings.TrimSpace s) fence []) := by
  unfold postProcess
  simp only [h, Bool.false_eq_true, if_false]

theorem postProcess_fenced (s l1 l2 : Str) (ls : List Str)
    (h : strings.HasPrefix (strings.TrimSpace s) fence = true)
    (hl : strings.Split (strings.TrimSpace s) '\n' = l1 :: l2 :: ls) :
    postProcess s = strings.TrimSpace (strings.ReplaceAll l2 fence []) := by
  unfold postProcess
  simp only [h, if_true, hl]
  simp

theorem postProcess_fenced_one (s l1 : Str)
    (h : strings.HasPrefix (strings.TrimSpace s) fence = true)
    (hl : strings.Split (strings.TrimSpace s) '\n' = [l1]) :
    postProcess s = strings.TrimSpace (strings.ReplaceAll (strings.TrimSpace s) fence []) := by
  unfold postProcess
  simp only [h, if_true, hl]
  simp

/-! ## The history under `record` -/

theorem record_of_nonneg (sa : ShellAgent) (command result : Str)
    (hM : 0 ≤ sa.config.MaxHistory) :
    record sa command result =
      some { commandHistory :=
               List.drop (sa.commandHistory.length + 1 - sa.config.MaxHistory.toNat)
                 (sa.commandHistory ++ [{ Command := command, Result := result }]),
             config := sa.config } := by
  obtain ⟨m, hm⟩ := Int.eq_ofNat_of_zero_le hM
  unfold record
  simp only [List.length_append, List.length_singleton, hm, Int.toNat_ofNat]
  by_cases h : sa.commandHistory.length + 1 > m
  · have h1 : ((sa.commandHistory.length + 1 : Nat) : Int) > (m : Int) := by exact_mod_cast h
    have h2 : (((sa.commandHistory.length + 1 : Nat) : Int) - (m : Int)).toNat
        = sa.commandHistory.length + 1 - m := by omega
    have h3 : 0 ≤ ((sa.commandHistory.length + 1 : Nat) : Int) - (m : Int) ∧
        ((sa.commandHistory.length + 1 : Nat) : Int) - (m : Int)
          ≤ ((sa.commandHistory.length + 1 : Nat) : Int) := by omega
    rw [if_pos h1, if_pos h3, h2]
  · have h1 : ¬ ((sa.commandHistory.length + 1 : Nat) : Int) > (m : Int) := by
      intro hc; exact h (by exact_mod_cast hc)
    have h2 : sa.commandHistory.length + 1 - m = 0 := by omega
    rw [if_neg h1, h2, List.drop_zero]

theorem lastEntries_snoc (m : Nat) (p : List CommandHistory) (e : CommandHistory) :
    (lastEntries m p ++ [e]).drop ((lastEntries m p).length + 1 - m) = lastEntries m (p ++ [e]) := by
  unfold lastEntries
  simp only [List.length_drop, List.length_append, List.length_singleton]
  by_cases h : p.length ≤ m
  · have e1 : p.length - min p.length m = 0 := by omega
    have e2 : p.length + 1 - min (p.length + 1) m = p.length + 1 - m := by omega
    simp only [e1, List.drop_zero, Nat.sub_zero, e2]
  · have e1 : p.length - min p.length m = p.length - m := by omega
    have e2 : p.length + 1 - min (p.length + 1) m = 1 + (p.length - m) := by omega
    have e3 : p.length - (p.length - m) + 1 - m = 1 := by omega
    have e4 : List.drop (p.length - m) (p ++ [e]) = List.drop (p.length - m) p ++ [e] :=
      List.drop_append_of_le_length (by omega)
    rw [e1, e2, e3, Nat.add_comm 1, ← List.drop_drop, e4]

theorem foldlM_record (cfg : Config) (hM : 0 ≤ cfg.MaxHistory) (es p : List CommandHistory) :
    es.foldlM (fun sa e => record sa e.Command e.Result)
        ({ commandHistory := lastEntries cfg.MaxHistory.toNat p, config := cfg } : ShellAgent)
      = some { commandHistory := lastEntries cfg.MaxHistory.toNat (p ++ es), config := cfg } := by
  induction es generalizing p with
  | nil => simp
  | cons e es ih =>
    rw [List.foldlM_cons, record_of_nonneg _ _ _ hM]
    simp only [Option.bind_eq_bind, Option.some_bind]
    rw [lastEntries_snoc, ih (p ++ [e])]
    simp

/-! ## The context block -/

theorem formatInt_succ (i : Nat) : fmt.formatInt ((i : Int) + 1) = (Nat.repr (i + 1)).toList := by
  have h : ¬ ((i : Int) + 1 < 0) := by omega
  have h2 : ((i : Int) + 1).natAbs = i + 1 := by omega
  simp only [fmt.formatInt, if_neg h, h2, Nat.repr, List.asString]
  rfl

theorem foldl_enumFrom_lines (l : List CommandHistory) (n : Nat) (acc : Str) :
    (l.enumFrom n).foldl (fun acc p => acc ++ contextLine p.1 p.2.Command) acc
      = acc ++ ((List.range l.length).flatMap
          (fun j => contextLine (n + j) ((l.map (·.Command)).getD j []))) := by
  induction l generalizing n acc with
  | nil => simp
  | cons e es ih =>
    rw [List.enumFrom_cons, List.foldl_cons, ih]
    simp only [List.length_cons, List.range_succ_eq_map, List.flatMap_cons, List.flatMap_map,
      List.map_cons, List.getD_cons_zero, Nat.add_zero, List.append_assoc]
    congr 2
    apply List.flatMap_congr
    intro j _
    simp only [Function.comp, List.getD_cons_succ]
    congr 1
    omega

theorem contextInfo_eq_spec (sa : ShellAgent) :
    contextInfo sa = contextBlockSpec (sa.commandHistory.map (·.Command)) := by
  unfold contextInfo contextBlockSpec
  by_cases h : sa.commandHistory = []
  · simp [h]
  · have hlen : sa.commandHistory.length > 0 := List.length_pos.mpr h
    have hmap : ¬ sa.commandHistory.map (·.Command) = [] := by simpa using h
    rw [if_pos hlen, if_neg hmap]
    have hstart : (if (sa.commandHistory.length : Int) - 3 < 0 then (0 : Int)
        else (sa.commandHistory.length : Int) - 3).toNat
          = sa.commandHistory.length - min 3 sa.commandHistory.length := by
      split <;> omega
    simp only [hstart, List.enum, foldl_enumFrom_lines, List.length_drop, List.length_map]
    have hk : sa.commandHistory.length - (sa.commandHistory.length - min 3 sa.commandHistory.length)
        = min 3 sa.commandHistory.length := by omega
    rw [hk]
    congr 1
    apply List.flatMap_congr
    intro j _
    simp only [contextLine, formatInt_succ, Nat.zero_add, List.map_drop, List.getD_eq_getElem?_getD,
      List.getElem?_drop]

theorem confirmSet_declineSet_disjoint (t : Str) : ¬ (t ∈ confirmSet ∧ t ∈ declineSet) := by
  rintro ⟨h1, h2⟩
  simp only [confirmSet, List.mem_cons, List.mem_singleton, List.not_mem_nil, or_false] at h1
  rcases h1 with rfl | rfl | rfl | rfl | rfl <;> exact absurd h2 (by decide)

theorem branchOf_execute_iff (t : Str) : branchOf t = .execute ↔ t ∈ confirmSet := by
  have hm : t ∈ confirmSet ↔ (t = "да".toList ∨ t = "yes".toList ∨ t = "y".toList ∨
      t = "d".toList ∨ t = "1".toList) := by
    simp only [confirmSet, List.mem_cons, List.mem_singleton, List.not_mem_nil, or_false]
  rw [hm]
  unfold branchOf
  constructor
  · intro h
    by_contra hc
    rw [if_neg hc] at h
    split at h <;> cases h
  · intro h
    rw [if_pos h]

theorem branchOf_cancel_iff (t : Str) : branchOf t = .cancel ↔ t ∈ declineSet := by
  have hm : t ∈ declineSet ↔ (t = "нет".toList ∨ t = "no".toList ∨ t = "n".toList ∨
      t = "0".toList) := by
    simp only [declineSet, List.mem_cons, List.mem_singleton, List.not_mem_nil, or_false]
  constructor
  · intro h
    rw [hm]
    unfold branchOf at h
    split at h
    · cases h
    · by_contra hc
      rw [if_neg hc] at h
      cases h
  · intro h
    have hno : ¬ branchOf t = .execute := fun he =>
      confirmSet_declineSet_disjoint t ⟨(branchOf_execute_iff t).mp he, h⟩
    rw [hm] at h
    by_cases hc : t = "да".toList ∨ t = "yes".toList ∨ t = "y".toList ∨ t = "d".toList ∨
        t = "1".toList
    · exfalso
      apply hno
      unfold branchOf
      rw [if_pos hc]
    · unfold branchOf
      rw [if_neg hc, if_pos h]

theorem branchOf_reprompt_iff (t : Str) :
    branchOf t = .reprompt ↔ t ∉ confirmSet ∧ t ∉ declineSet := by
  rw [← branchOf_execute_iff, ← branchOf_cancel_iff]
  cases branchOf t <;> simp

/-! ## The confirmation loop and the session loop -/

theorem confirmIteration_execute (lower : Char → Char) (exec : Str → ExecOutcome)
    (sa : ShellAgent) (command line : Str)
    (h : branchOf (strings.TrimSpace (strings.ToLower lower line)) = .execute)
    (hM : 0 ≤ sa.config.MaxHistory) :
    confirmIteration lower exec sa command line =
      .returned
        { commandHistory :=
            List.drop (sa.commandHistory.length + 1 - sa.config.MaxHistory.toNat)
              (sa.commandHistory ++ [{ Command := command, Result := runShell exec command }]),
          config := sa.config }
        (runShell exec command) := by
  unfold confirmIteration
  simp only [h, record_of_nonneg sa command _ hM]

theorem confirmIteration_cancel (lower : Char → Char) (exec : Str → ExecOutcome)
    (sa : ShellAgent) (command line : Str)
    (h : branchOf (strings.TrimSpace (strings.ToLower lower line)) = .cancel) :
    confirmIteration lower exec sa command line = .returned sa cancelled := by
  unfold confirmIteration
  simp only [h]

theorem confirmIteration_reprompt (lower : Char → Char) (exec : Str → ExecOutcome)
    (sa : ShellAgent) (command line : Str)
    (h : branchOf (strings.TrimSpace (strings.ToLower lower line)) = .reprompt) :
    confirmIteration lower exec sa command line = .confirming sa command := by
  unfold confirmIteration
  simp only [h]

theorem confirmIteration_confirming_iff (lower : Char → Char) (exec : Str → ExecOutcome)
    (sa : ShellAgent) (command line : Str) :
    confirmIteration lower exec sa command line = .confirming sa command ↔
      branchOf (strings.TrimSpace (strings.ToLower lower line)) = .reprompt := by
  constructor
  · intro h
    unfold confirmIteration at h
    cases hb : branchOf (strings.TrimSpace (strings.ToLower lower line)) with
    | execute =>
      simp only [hb] at h
      split at h <;> cases h
    | cancel => simp only [hb] at h; cases h
    | reprompt => rfl
  · exact confirmIteration_reprompt lower exec sa command line

/-- While the tokens read are not recognised the loop stays where it is; the
first recognised token decides. -/
theorem confirmLoop_after_reprompts (lower : Char → Char) (exec : Str → ExecOutcome)
    (sa : ShellAgent) (command : Str) (k : Nat) :
    ∀ (reads : Nat → ReadResult) (m : Nat),
      (∀ j, j < k →
        branchOf (strings.TrimSpace (strings.ToLower lower (reads j).line)) = .reprompt) →
      confirmLoop lower exec (k + m) sa command reads
        = confirmLoop lower exec m sa command (fun n => reads (k + n)) := by
  induction k with
  | zero => intro reads m _; simp
  | succ k ih =>
    intro reads m h
    have h0 := confirmIteration_reprompt lower exec sa command (reads 0).line (h 0 (by omega))
    have e : k + 1 + m = (k + m) + 1 := by omega
    rw [e, confirmLoop, h0]
    simp only
    rw [ih (fun n => reads (n + 1)) m (fun j hj => h (j + 1) (by omega))]
    congr 1
    funext n
    congr 1
    omega

theorem confirmLoop_all_reprompts (lower : Char → Char) (exec : Str → ExecOutcome)
    (sa : ShellAgent) (command : Str) (reads : Nat → ReadResult)
    (h : ∀ j, branchOf (strings.TrimSpace (strings.ToLower lower (reads j).line)) = .reprompt)
    (fuel : Nat) :
    confirmLoop lower exec fuel sa command reads = .confirming sa command := by
  have := confirmLoop_after_reprompts lower exec sa command fuel reads 0 (fun j _ => h j)
  simpa [confirmLoop] using this

theorem confirmLoop_decides (lower : Char → Char) (exec : Str → ExecOutcome)
    (sa : ShellAgent) (command : Str) (reads : Nat → ReadResult) (k fuel : Nat)
    (h : ∀ j, j < k →
      branchOf (strings.TrimSpace (strings.ToLower lower (reads j).line)) = .reprompt)
    (hk : branchOf (strings.TrimSpace (strings.ToLower lower (reads k).line)) ≠ .reprompt)
    (hfuel : k < fuel) :
    confirmLoop lower exec fuel sa command reads
      = confirmIteration lower exec sa command (reads k).line := by
  obtain ⟨m, rfl⟩ : ∃ m, fuel = k + (m + 1) := ⟨fuel - k - 1, by omega⟩
  rw [confirmLoop_after_reprompts lower exec sa command k reads (m + 1) h, confirmLoop]
  simp only [Nat.add_zero]
  have hne : ∀ sa' c', confirmIteration lower exec sa command (reads k).line
      ≠ .confirming sa' c' := by
    intro sa' c' hc
    unfold confirmIteration at hc
    cases hb : branchOf (strings.TrimSpace (strings.ToLower lower (reads k).line)) with
    | execute =>
      simp only [hb] at hc
      split at hc <;> cases hc
    | cancel => simp only [hb] at hc; cases hc
    | reprompt => exact hk hb
  split
  · rename_i sa' c' heq
    exact absurd heq (hne sa' c')
  · rfl

/-- A failed read of the query leaves the session where it is. -/
theorem step_read_error (env : Env) (sa : ShellAgent) (r : ReadResult) (h : r.err ≠ none) :
    step env { sa := sa, phase := .awaitingQuery } r = { sa := sa, phase := .awaitingQuery } := by
  cases hr : r.err with
  | none => exact absurd hr h
  | some e => simp [step, queryIteration, hr]

theorem runSession_read_errors (n : Nat) :
    ∀ (env : Nat → Env) (reads : Nat → ReadResult) (sa : ShellAgent),
      (∀ k, (reads k).err ≠ none) →
      runSession env reads n { sa := sa, phase := .awaitingQuery }
        = { sa := sa, phase := .awaitingQuery } := by
  induction n with
  | zero => intro env reads sa _; rfl
  | succ n ih =>
    intro env reads sa h
    rw [runSession, step_read_error (env 0) sa (reads 0) (h 0)]
    exact ih _ _ sa (fun k => h (k + 1))

/-! ## The properties claimed of the program -/

/-- C1: starting from an empty history, with a capacity `MaxHistory = M ≥ 0`,
after the entries `es` have been recorded one by one (append, then keep the
last `M`), no slice panics, the history holds exactly `min N M` entries,
namely the last `min N M` of `es` in their order, and its length is at most `M`. -/
theorem history_append_eviction (cfg : Config) (es : List CommandHistory)
    (hM : 0 ≤ cfg.MaxHistory) :
    ∃ sa' : ShellAgent,
      es.foldlM (fun sa e => record sa e.Command e.Result)
          ({ commandHistory := [], config := cfg } : ShellAgent) = some sa' ∧
      sa'.config = cfg ∧
      sa'.commandHistory = es.drop (es.length - min es.length cfg.MaxHistory.toNat) ∧
      sa'.commandHistory.length = min es.length cfg.MaxHistory.toNat ∧
      (sa'.commandHistory.length : Int) ≤ cfg.MaxHistory := by
  have h := foldlM_record cfg hM es []
  have h0 : lastEntries cfg.MaxHistory.toNat [] = [] := by simp [lastEntries]
  rw [h0, List.nil_append] at h
  refine ⟨_, h, rfl, rfl, ?_, ?_⟩
  · simp only [lastEntries, List.length_drop]; omega
  · simp only [lastEntries, List.length_drop]; omega

/-- C1 at `MaxHistory = 2`: recording A, B, C leaves exactly [B, C]. -/
theorem history_append_eviction_witness :
    (0 : Int) ≤ 2 ∧
    [(⟨"A".toList, "a".toList⟩ : CommandHistory), ⟨"B".toList, "b".toList⟩,
        ⟨"C".toList, "c".toList⟩].foldlM (fun sa e => record sa e.Command e.Result)
        ({ commandHistory := [], config := { NewShellAgent.config with MaxHistory := 2 } } :
          ShellAgent)
      = some { commandHistory := [⟨"B".toList, "b".toList⟩, ⟨"C".toList, "c".toList⟩],
               config := { NewShellAgent.config with MaxHistory := 2 } } := by
  refine ⟨by decide, ?_⟩
  obtain ⟨sa', h1, h2, h3, _, _⟩ :=
    history_append_eviction { NewShellAgent.config with MaxHistory := 2 }
      [⟨"A".toList, "a".toList⟩, ⟨"B".toList, "b".toList⟩, ⟨"C".toList, "c".toList⟩] (by decide)
  rw [h1]
  cases sa' with
  | mk hist conf =>
    simp only at h2 h3
    rw [h2, h3]
    rfl

/-- C2: the post-processing of `naturalLanguageToCommand` is idempotent:
applied to its own output it returns that output. -/
theorem postProcess_idempotent (s : Str) : postProcess (postProcess s) = postProcess s :=
  postProcess_of_clean _ (postProcess_trimmed s) (postProcess_noFence s)

/-- C4: when the trimmed response is the fence marker, a tag free of line
breaks, a line break, a second line `l2` and then either nothing or a line
break and anything at all, the command is `l2` with every fence marker
removed and trimmed; what follows the second line has no influence. -/
theorem postProcess_second_line (s tag l2 rest : Str)
    (hs : strings.TrimSpace s = fence ++ tag ++ '\n' :: (l2 ++ rest))
    (htag : '\n' ∉ tag) (hl2 : '\n' ∉ l2) (hrest : rest = [] ∨ ∃ r, rest = '\n' :: r) :
    postProcess s = strings.TrimSpace (strings.ReplaceAll l2 fence []) := by
  have hf : '\n' ∉ fence := by decide
  have h1 : '\n' ∉ fence ++ tag := by
    intro h
    rcases List.mem_append.mp h with h | h
    · exact hf h
    · exact htag h
  have hp : strings.HasPrefix (strings.TrimSpace s) fence = true := by
    unfold strings.HasPrefix
    rw [List.isPrefixOf_iff_prefix, hs, List.append_assoc]
    exact List.prefix_append _ _
  rcases hrest with rfl | ⟨r, rfl⟩
  · refine postProcess_fenced s (fence ++ tag) l2 [] hp ?_
    rw [hs, strings.Split_append_sep _ _ _ h1, List.append_nil, strings.Split_of_not_mem _ _ hl2]
  · refine postProcess_fenced s (fence ++ tag) l2 (strings.Split r '\n') hp ?_
    rw [hs, strings.Split_append_sep _ _ _ h1, strings.Split_append_sep _ _ _ hl2]

/-- C4 on the response of the spec: a fenced `ls -la` yields exactly `ls -la`. -/
theorem postProcess_second_line_witness :
    postProcess "```bash\nls -la\n```".toList = "ls -la".toList :=
  (postProcess_second_line "```bash\nls -la\n```".toList "bash".toList "ls -la".toList
    "\n```".toList (by decide) (by decide) (by decide) (Or.inr ⟨"```".toList, by decide⟩)).trans
    (by decide)

/-- C8 as stated fails: the unfenced response `ls`, line break, `pwd` is
returned as it is, line break included. -/
theorem single_line_counterexample :
    naturalLanguageToCommand NewShellAgent (fun _ => .response 200 (.ok "ls\npwd".toList))
        "show".toList = .ok "ls\npwd".toList ∧
    '\n' ∈ "ls\npwd".toList := by
  constructor
  · have hp : postProcess "ls\npwd".toList = "ls\npwd".toList := by decide
    have hn : naturalLanguageToCommand NewShellAgent
        (fun _ => .response 200 (.ok "ls\npwd".toList)) "show".toList
          = .ok (postProcess "ls\npwd".toList) := rfl
    rw [hn, hp]
  · decide

/-- C8, amended: when the inference service answers with status 200 and a
response whose trimmed text starts with the fence marker or holds no line
break, `naturalLanguageToCommand` returns a command without a line break. -/
theorem single_line_when_fenced (sa : ShellAgent) (ollama : OllamaRequest → OllamaOutcome)
    (query response : Str)
    (hcall : ollama { Model := sa.config.Model, Prompt := buildPrompt sa query, Stream := false }
      = .response 200 (.ok response))
    (h : strings.HasPrefix (strings.TrimSpace response) fence = true ∨
      '\n' ∉ strings.TrimSpace response) :
    ∃ command : Str, naturalLanguageToCommand sa ollama query = .ok command ∧ '\n' ∉ command := by
  refine ⟨postProcess response, ?_, ?_⟩
  · unfold naturalLanguageToCommand
    simp only [hcall]
    simp
  · have chain : ∀ x : Str, '\n' ∉ x →
        '\n' ∉ strings.TrimSpace (strings.ReplaceAll x fence []) := fun x hx hm =>
      hx (strings.mem_of_mem_ReplaceAll _ _ _ ((strings.TrimSpace_sublist _).subset hm))
    by_cases hp : strings.HasPrefix (strings.TrimSpace response) fence = true
    · cases hl : strings.Split (strings.TrimSpace response) '\n' with
      | nil => exact absurd hl (strings.Split_ne_nil _ _)
      | cons l1 ls =>
        cases ls with
        | nil =>
          rw [postProcess_fenced_one response l1 hp hl]
          apply chain
          rw [strings.Split_singleton _ _ _ hl]
          exact strings.not_mem_of_mem_Split _ _ l1 (by rw [hl]; exact List.mem_cons_self _ _)
        | cons l2 ls =>
          rw [postProcess_fenced response l1 l2 ls hp hl]
          apply chain
          exact strings.not_mem_of_mem_Split _ _ l2
            (by rw [hl]; exact List.mem_cons_of_mem _ (List.mem_cons_self _ _))
    · have hp' : strings.HasPrefix (strings.TrimSpace response) fence = false := by
        simpa using hp
      rw [postProcess_unfenced response hp']
      apply chain
      rcases h with h | h
      · exact absurd h hp
      · exact h

/-- C8 amended, on the fenced response of the spec. -/
theorem single_line_when_fenced_witness :
    ∃ command : Str,
      naturalLanguageToCommand NewShellAgent
        (fun _ => .response 200 (.ok "```bash\nls -la\n```".toList)) "show files".toList
        = .ok command ∧ '\n' ∉ command :=
  single_line_when_fenced NewShellAgent (fun _ => .response 200 (.ok "```bash\nls -la\n```".toList))
    "show files".toList "```bash\nls -la\n```".toList rfl (Or.inl (by decide))

/-- C3: the context block of `naturalLanguageToCommand` is the block of the
specification over the commands of the history: empty for an empty history,
else the header and the lines `j. command` for the `min 3 n` most recent
entries in chronological order, numbered from 1; hence two agents whose
histories carry the same commands (whatever the results) get the same block. -/
theorem contextInfo_render (sa : ShellAgent) :
    contextInfo sa = contextBlockSpec (sa.commandHistory.map (·.Command)) ∧
    ∀ sa' : ShellAgent,
      sa'.commandHistory.map (·.Command) = sa.commandHistory.map (·.Command) →
      contextInfo sa' = contextInfo sa := by
  refine ⟨contextInfo_eq_spec sa, fun sa' h => ?_⟩
  rw [contextInfo_eq_spec sa', contextInfo_eq_spec sa, h]

/-- C3 on the history of the spec: one entry `touch example.txt` gives the
header and the line `1. touch example.txt`, whatever its result. -/
theorem contextInfo_render_witness :
    contextInfo { NewShellAgent with
        commandHistory := [⟨"touch example.txt".toList, "done".toList⟩] }
      = contextHeader ++ "1. touch example.txt\n".toList ∧
    contextInfo { NewShellAgent with
        commandHistory := [⟨"touch example.txt".toList, "other".toList⟩] }
      = contextInfo { NewShellAgent with
        commandHistory := [⟨"touch example.txt".toList, "done".toList⟩] } :=
  ⟨(contextInfo_render _).1.trans (by decide), (contextInfo_render _).2 _ rfl⟩

/-- C5: on the token read (lower-cased, trimmed) the confirmation loop takes the
execute arm exactly on the confirm set, the cancel arm exactly on the decline
set, and stays at the head of the loop with the same agent and command exactly
when the token is in neither; executing records and returns the result of
`runShell`, cancelling returns the agent unchanged; no token is in both sets;
and while no recognised token arrives the loop never leaves that state. -/
theorem confirmation_step (lower : Char → Char) (exec : Str → ExecOutcome) (sa : ShellAgent)
    (command line : Str) :
    (branchOf (strings.TrimSpace (strings.ToLower lower line)) = .execute ↔
      strings.TrimSpace (strings.ToLower lower line) ∈ confirmSet) ∧
    (branchOf (strings.TrimSpace (strings.ToLower lower line)) = .cancel ↔
      strings.TrimSpace (strings.ToLower lower line) ∈ declineSet) ∧
    (confirmIteration lower exec sa command line = .confirming sa command ↔
      strings.TrimSpace (strings.ToLower lower line) ∉ confirmSet ∧
      strings.TrimSpace (strings.ToLower lower line) ∉ declineSet) ∧
    (strings.TrimSpace (strings.ToLower lower line) ∈ confirmSet →
      confirmIteration lower exec sa command line =
        match record sa command (runShell exec command) with
        | some sa' => .returned sa' (runShell exec command)
        | none => .panicked) ∧
    (strings.TrimSpace (strings.ToLower lower line) ∈ declineSet →
      confirmIteration lower exec sa command line = .returned sa cancelled) ∧
    (∀ t : Str, ¬ (t ∈ confirmSet ∧ t ∈ declineSet)) ∧
    (∀ (reads : Nat → ReadResult) (fuel : Nat),
      (∀ j, strings.TrimSpace (strings.ToLower lower (reads j).line) ∉ confirmSet ∧
        strings.TrimSpace (strings.ToLower lower (reads j).line) ∉ declineSet) →
      confirmLoop lower exec fuel sa command reads = .confirming sa command) := by
  refine ⟨branchOf_execute_iff _, branchOf_cancel_iff _, ?_, ?_, ?_,
    confirmSet_declineSet_disjoint, ?_⟩
  · rw [confirmIteration_confirming_iff, branchOf_reprompt_iff]
  · intro h
    have hb := (branchOf_execute_iff _).mpr h
    unfold confirmIteration
    simp only [hb]
  · intro h
    exact confirmIteration_cancel lower exec sa command line ((branchOf_cancel_iff _).mpr h)
  · intro reads fuel h
    exact confirmLoop_all_reprompts lower exec sa command reads
      (fun j => (branchOf_reprompt_iff _).mpr (h j)) fuel

/-- C5 on three lines: `Y` confirms, ` no ` declines, `maybe` re-prompts. -/
theorem confirmation_step_witness :
    confirmIteration Char.toLower offlineEnv.exec NewShellAgent "ls".toList "maybe\n".toList
      = .confirming NewShellAgent "ls".toList ∧
    confirmIteration Char.toLower offlineEnv.exec NewShellAgent "ls".toList " no \n".toList
      = .returned NewShellAgent cancelled ∧
    confirmIteration Char.toLower offlineEnv.exec NewShellAgent "ls".toList "Y\n".toList
      = .returned
          { NewShellAgent with
            commandHistory :=
              [⟨"ls".toList, "Команда выполнена успешно (нет вывода)".toList⟩] }
          "Команда выполнена успешно (нет вывода)".toList :=
  ⟨(confirmation_step Char.toLower offlineEnv.exec NewShellAgent "ls".toList
      "maybe\n".toList).2.2.1.mpr ⟨by decide, by decide⟩,
   (confirmation_step Char.toLower offlineEnv.exec NewShellAgent "ls".toList
      " no \n".toList).2.2.2.2.1 (by decide),
   ((confirmation_step Char.toLower offlineEnv.exec NewShellAgent "ls".toList
      "Y\n".toList).2.2.2.1 (by decide)).trans (by decide)⟩

/-- C6 as stated fails: confirming the candidate of three spaces returns the
empty-command sentinel and the history gains the entry for it; so does a whole
turn in which the service answers with a blank, whose candidate is the empty
command. -/
theorem empty_command_counterexample :
    confirmIteration Char.toLower offlineEnv.exec NewShellAgent "   ".toList "y\n".toList
      = .returned
          { NewShellAgent with
            commandHistory := [⟨"   ".toList, "Пустая команда".toList⟩] }
          "Пустая команда".toList ∧
    [(⟨"   ".toList, "Пустая команда".toList⟩ : CommandHistory)] ≠ NewShellAgent.commandHistory ∧
    intelligentShellAgent { offlineEnv with ollama := fun _ => .response 200 (.ok " ".toList) }
        NewShellAgent "do nothing".toList (fun _ => ⟨"y\n".toList, none⟩) 1
      = .returned
          { NewShellAgent with commandHistory := [⟨[], "Пустая команда".toList⟩] }
          "Пустая команда".toList := by
  refine ⟨?_, ?_, ?_⟩
  · decide
  · decide
  · decide

/-- C6, amended: for a candidate command of white space only, a confirmed turn
with `MaxHistory ≥ 0` returns the empty-command sentinel whatever the exec
collaborator would answer, and records the entry (command, sentinel) like any
confirmed turn: appended, then cut to the last `MaxHistory` entries. -/
theorem empty_command_recorded (lower : Char → Char) (exec : Str → ExecOutcome)
    (sa : ShellAgent) (command line : Str)
    (hblank : ∀ c ∈ command, unicode.IsSpace c = true)
    (hyes : strings.TrimSpace (strings.ToLower lower line) ∈ confirmSet)
    (hM : 0 ≤ sa.config.MaxHistory) :
    runShell exec command = "Пустая команда".toList ∧
    confirmIteration lower exec sa command line =
      .returned
        { commandHistory :=
            List.drop (sa.commandHistory.length + 1 - sa.config.MaxHistory.toNat)
              (sa.commandHistory ++
                [{ Command := command, Result := "Пустая команда".toList }]),
          config := sa.config }
        "Пустая команда".toList := by
  have hr : runShell exec command = "Пустая команда".toList := by
    unfold runShell
    rw [if_pos ((strings.TrimSpace_eq_nil_iff command).mpr hblank)]
  refine ⟨hr, ?_⟩
  rw [confirmIteration_execute lower exec sa command line ((branchOf_execute_iff _).mpr hyes) hM,
    hr]

/-- C6 amended, on the candidate of three spaces of the spec. -/
theorem empty_command_recorded_witness :
    runShell offlineEnv.exec "   ".toList = "Пустая команда".toList ∧
    confirmIteration Char.toLower offlineEnv.exec NewShellAgent "   ".toList "y\n".toList =
      .returned
        { commandHistory :=
            List.drop (NewShellAgent.commandHistory.length + 1 - NewShellAgent.config.MaxHistory.toNat)
              (NewShellAgent.commandHistory ++
                [{ Command := "   ".toList, Result := "Пустая команда".toList }]),
          config := NewShellAgent.config }
        "Пустая команда".toList :=
  empty_command_recorded Char.toLower offlineEnv.exec NewShellAgent "   ".toList "y\n".toList
    (by decide) (by decide) (by decide)

/-- C7 as stated fails: a run cut short by the timeout after it printed
`partial` yields `partial`, not the execution-error sentinel. -/
theorem execution_error_counterexample :
    runShell (fun _ => { stdout := "partial".toList, stderr := [], err := some "signal: killed".toList })
        "sleep 100".toList = "partial".toList ∧
    "partial".toList ≠ "Ошибка выполнения: signal: killed".toList := by
  constructor
  · decide
  · decide

/-- C7, amended: for a command that is not blank and a run that ended with an
error, `runShell` returns the execution-error sentinel with the cause when
both captured streams are empty, and otherwise the captured output (trimmed
standard output, then trimmed standard error under the error label); a
confirmed turn with `MaxHistory ≥ 0` returns that result and records the
entry (command, result): appended, then cut to the last `MaxHistory` entries. -/
theorem execution_error_result (lower : Char → Char) (exec : Str → ExecOutcome)
    (sa : ShellAgent) (command line cause : Str)
    (hcmd : strings.TrimSpace command ≠ [])
    (herr : (exec command).err = some cause)
    (hyes : strings.TrimSpace (strings.ToLower lower line) ∈ confirmSet)
    (hM : 0 ≤ sa.config.MaxHistory) :
    runShell exec command =
      (if (exec command).stdout = [] ∧ (exec command).stderr = [] then
        "Ошибка выполнения: ".toList ++ cause
      else
        strings.Join
          ((if (exec command).stdout = [] then []
            else [strings.TrimSpace (exec command).stdout]) ++
           (if (exec command).stderr = [] then []
            else ["Ошибка: ".toList ++ strings.TrimSpace (exec command).stderr]))
          "\n".toList) ∧
    confirmIteration lower exec sa command line =
      .returned
        { commandHistory :=
            List.drop (sa.commandHistory.length + 1 - sa.config.MaxHistory.toNat)
              (sa.commandHistory ++
                [{ Command := command, Result := runShell exec command }]),
          config := sa.config }
        (runShell exec command) := by
  refine ⟨?_, confirmIteration_execute lower exec sa command line
    ((branchOf_execute_iff _).mpr hyes) hM⟩
  unfold runShell
  rw [if_neg hcmd]
  simp only [herr]
  cases hso : (exec command).stdout with
  | nil =>
    cases hse : (exec command).stderr with
    | nil => simp
    | cons a t => simp
  | cons a t =>
    cases hse : (exec command).stderr with
    | nil => simp
    | cons a' t' => simp

/-- C7 amended, on a run killed by the timeout before it printed anything: the
sentinel is returned and recorded. -/
theorem execution_error_result_witness :
    confirmIteration Char.toLower
        (fun _ => { stdout := [], stderr := [], err := some "signal: killed".toList })
        NewShellAgent "sleep 100".toList "y\n".toList =
      .returned
        { NewShellAgent with
          commandHistory :=
            [⟨"sleep 100".toList, "Ошибка выполнения: signal: killed".toList⟩] }
        "Ошибка выполнения: signal: killed".toList :=
  (execution_error_result Char.toLower
    (fun _ => { stdout := [], stderr := [], err := some "signal: killed".toList })
    NewShellAgent "sleep 100".toList "y\n".toList "signal: killed".toList
    (by decide) rfl (by decide) (by decide)).2.trans (by decide)

/-- C9: the history changes only through a confirmed execution.  After the
translation and before any answer is read the turn holds the agent it
started with; a turn whose translation fails returns the agent unchanged; and
a turn whose translation succeeds and whose first recognised token declines
returns the fixed cancellation message and the agent unchanged. -/
theorem history_frame (env : Env) (sa : ShellAgent) (query : Str) (reads : Nat → ReadResult) :
    ((∃ message, intelligentShellAgent env sa query reads 0 = .returned sa message) ∨
      (∃ command, intelligentShellAgent env sa query reads 0 = .confirming sa command)) ∧
    (∀ (err : Str) (fuel : Nat),
      naturalLanguageToCommand sa env.ollama query = .error err →
      intelligentShellAgent env sa query reads fuel =
        .returned sa ("Ошибка преобразования: ".toList ++ err)) ∧
    (∀ (command : Str) (k fuel : Nat),
      naturalLanguageToCommand sa env.ollama query = .ok command →
      (∀ j, j < k →
        strings.TrimSpace (strings.ToLower env.lower (reads j).line) ∉ confirmSet ∧
        strings.TrimSpace (strings.ToLower env.lower (reads j).line) ∉ declineSet) →
      strings.TrimSpace (strings.ToLower env.lower (reads k).line) ∈ declineSet →
      k < fuel →
      intelligentShellAgent env sa query reads fuel = .returned sa cancelled) := by
  refine ⟨?_, ?_, ?_⟩
  · unfold intelligentShellAgent
    cases naturalLanguageToCommand sa env.ollama query with
    | error err => exact Or.inl ⟨_, rfl⟩
    | ok command => exact Or.inr ⟨command, rfl⟩
  · intro err fuel h
    unfold intelligentShellAgent
    rw [h]
  · intro command k fuel h hre hdec hfuel
    have hb := (branchOf_cancel_iff _).mpr hdec
    unfold intelligentShellAgent
    rw [h]
    simp only
    rw [confirmLoop_decides env.lower env.exec sa command reads k fuel
        (fun j hj => (branchOf_reprompt_iff _).mpr (hre j hj)) (by rw [hb]; decide) hfuel]
    exact confirmIteration_cancel env.lower env.exec sa command (reads k).line hb

/-- C9 on two turns of an agent with one entry: the service is unreachable, and
the service answers `ls` and the user types `maybe`, then `no`. -/
theorem history_frame_witness :
    intelligentShellAgent offlineEnv
        { NewShellAgent with commandHistory := [⟨"pwd".toList, "/root".toList⟩] }
        "show files".toList (fun _ => ⟨"y\n".toList, none⟩) 5
      = .returned { NewShellAgent with commandHistory := [⟨"pwd".toList, "/root".toList⟩] }
          "Ошибка преобразования: ошибка запроса к Ollama: connection refused".toList ∧
    intelligentShellAgent
        { offlineEnv with ollama := fun _ => .response 200 (.ok "ls".toList) }
        { NewShellAgent with commandHistory := [⟨"pwd".toList, "/root".toList⟩] }
        "show files".toList
        (fun n => if n = 0 then ⟨"maybe\n".toList, none⟩ else ⟨"no\n".toList, none⟩) 5
      = .returned { NewShellAgent with commandHistory := [⟨"pwd".toList, "/root".toList⟩] }
          cancelled :=
  ⟨((history_frame offlineEnv _ "show files".toList (fun _ => ⟨"y\n".toList, none⟩)).2.1
      "ошибка запроса к Ollama: connection refused".toList 5 rfl).trans (by decide),
   (history_frame { offlineEnv with ollama := fun _ => .response 200 (.ok "ls".toList) } _
      "show files".toList
      (fun n => if n = 0 then ⟨"maybe\n".toList, none⟩ else ⟨"no\n".toList, none⟩)).2.2
      "ls".toList 1 5 rfl
      (fun j hj => by
        have hj0 : j = 0 := by omega
        subst hj0
        exact ⟨by decide, by decide⟩)
      (by decide) (by decide)⟩

/-- C10 as stated fails: when every read of the console fails, no number of
iterations brings `interactiveMode` to the ended state. -/
theorem console_failure_counterexample :
    ¬ ∃ n : Nat,
      (interactiveMode (fun _ => offlineEnv) (fun _ => ⟨[], some "EOF".toList⟩)
        NewShellAgent n).phase = .ended := by
  rintro ⟨n, hn⟩
  unfold interactiveMode at hn
  rw [runSession_read_errors n _ _ NewShellAgent (fun _ => by simp)] at hn
  cases hn

/-- C10, amended: a failed read of the query is reported and the loop reads
again with the agent unchanged; when every read fails, after any number of
iterations `interactiveMode` is still awaiting a query with the agent it
started with, so it never reaches the ended state. -/
theorem console_failure_reprompts (env : Nat → Env) (reads : Nat → ReadResult) (sa : ShellAgent)
    (hfail : ∀ k, (reads k).err ≠ none) (n : Nat) :
    interactiveMode env reads sa n = { sa := sa, phase := .awaitingQuery } ∧
    (interactiveMode env reads sa n).phase ≠ .ended := by
  have h : interactiveMode env reads sa n = { sa := sa, phase := .awaitingQuery } :=
    runSession_read_errors n env reads sa hfail
  refine ⟨h, ?_⟩
  rw [h]
  simp

/-- C10 amended, at a console at end of input, after a hundred reads. -/
theorem console_failure_reprompts_witness :
    interactiveMode (fun _ => offlineEnv) (fun _ => ⟨[], some "EOF".toList⟩) NewShellAgent 100
      = { sa := NewShellAgent, phase := .awaitingQuery } :=
  (console_failure_reprompts (fun _ => offlineEnv) (fun _ => ⟨[], some "EOF".toList⟩)
    NewShellAgent (fun _ => by simp) 100).1

end ShellAgent
